import Mathlib

/-!
Verification of the Survey Geometry Resolver (backend/app.py).

A shallow embedding of the geometric core of the seismic map-view backend.
Python floats are modelled by `ℚ` in the exact arithmetic core (comparisons,
field operations) and by `ℝ` where a square root or `atan2` is taken
(`np.sqrt`, `** 0.5`, `np.angle`).  The SEGY loader is an external
collaborator: it is represented by the list of per-trace header rows it
yields, in native storage order, together with the raw scale factor read
from header slot 71 of the first trace.
-/

namespace Seismic

/-- One per-trace header row as yielded by the loader: inline index,
crossline index and the two CDP coordinates.  In `read_all_segy_metadata`'s
output the `x`/`y` fields hold the scaled coordinates (the raw coordinate
columns are carried along unchanged by the code and never consumed by the
geometry, so they are omitted there). -/
structure Row where
  inline : ℤ
  xline : ℤ
  x : ℚ
  y : ℚ
deriving DecidableEq, Repr

/-- One corner record of `read_segy_metadata`'s DataFrame: scaled
coordinates, raw coordinates, the two grid indices, the fixed corner index
0–3 and the effective scale factor. -/
structure CornerRec where
  X : ℚ
  Y : ℚ
  X_RAW : ℚ
  Y_RAW : ℚ
  INLINE : ℤ
  XLINE : ℤ
  corner_index : ℕ
  sgs : ℚ
deriving DecidableEq, Repr

/-- `apply_sgs_scaling` from the source: zero factor is the identity, a
negative factor divides by its absolute value, a positive factor
multiplies. -/
def apply_sgs_scaling (value sgs : ℚ) : ℚ :=
  if sgs = 0 then value
  else if sgs < 0 then value / |sgs|
  else value * sgs

/-- `pandas.unique` order: first occurrence of each value, seen-set version
(structural recursion). -/
def firstUniquesAux : List ℤ → List ℤ → List ℤ
  | [], _ => []
  | a :: l, seen =>
    if a ∈ seen then firstUniquesAux l seen else a :: firstUniquesAux l (a :: seen)

/-- Distinct values of a column in first-occurrence order
(`df[col].unique()`). -/
def firstUniques (l : List ℤ) : List ℤ := firstUniquesAux l []

/-- Insert into a sorted list of integers (helper for `sorted(...)` /
`list.sort()`). -/
def insertSorted (a : ℤ) : List ℤ → List ℤ
  | [] => [a]
  | b :: l => if a ≤ b then a :: b :: l else b :: insertSorted a l

/-- Python `sorted(...)` on integers, as insertion sort. -/
def sortInts : List ℤ → List ℤ
  | [] => []
  | a :: l => insertSorted a (sortInts l)

/-- `drop_duplicates(subset=[INLINE, XLINE])` with pandas' default
`keep='first'`: drop any row whose key was already seen. -/
def dedupKeyAux : List Row → List (ℤ × ℤ) → List Row
  | [], _ => []
  | r :: rs, seen =>
    if (r.inline, r.xline) ∈ seen then dedupKeyAux rs seen
    else r :: dedupKeyAux rs ((r.inline, r.xline) :: seen)

/-- Keep the first row of each `(inline, crossline)` key. -/
def dedupKey (rows : List Row) : List Row := dedupKeyAux rows []

/-- Scale the coordinates of one row (`apply_sgs_scaling` applied to the
CDP_X / CDP_Y columns). -/
def scaleRow (sgs : ℚ) (r : Row) : Row :=
  ⟨r.inline, r.xline, apply_sgs_scaling r.x sgs, apply_sgs_scaling r.y sgs⟩

/-- `read_all_segy_metadata`: substitute 1.0 for a zero scale factor, scale
every coordinate, then `drop_duplicates(subset=['INLINE','XLINE'])`. -/
def read_all_segy_metadata (rows : List Row) (sgsRaw : ℚ) : List Row :=
  let sgs := if sgsRaw = 0 then 1 else sgsRaw
  dedupKey (rows.map (scaleRow sgs))

/-- The `/map-data` route returns the deduplicated scaled table as records. -/
def map_data (rows : List Row) (sgsRaw : ℚ) : List Row :=
  read_all_segy_metadata rows sgsRaw

/-- Build one corner record (`corner_data.append({...})` in the source). -/
def mkCorner (r : Row) (i : ℕ) (sgs : ℚ) : CornerRec :=
  ⟨apply_sgs_scaling r.x sgs, apply_sgs_scaling r.y sgs, r.x, r.y,
    r.inline, r.xline, i, sgs⟩

/-- `read_segy_metadata`: pick the four corner traces at native positions
`header[0]`, `header[-1]`, `header[-(len(xlines))]`, `header[len(xlines)-1]`
(Python negative indices translated to `N - 1`, `N - C`), where `C` is the
number of distinct crossline values, and scale their coordinates.
An out-of-range index (an `IndexError` in Python) is modelled as `none`. -/
def read_segy_metadata (rows : List Row) (sgsRaw : ℚ) : Option (List CornerRec) :=
  let sgs := if sgsRaw = 0 then 1 else sgsRaw
  let N := rows.length
  let C := (firstUniques (rows.map (·.xline))).length
  (rows.get? 0).bind fun r0 =>
    (rows.get? (N - 1)).bind fun r1 =>
      (rows.get? (N - C)).bind fun r2 =>
        (rows.get? (C - 1)).map fun r3 =>
          [mkCorner r0 0 sgs, mkCorner r1 1 sgs, mkCorner r2 2 sgs, mkCorner r3 3 sgs]

/-- `survey_boundary`'s polygon construction: walk the fixed corner order
`[0, 3, 1, 2]`, take the first row with that `corner_index` when present,
then close the ring by appending a copy of the first point. -/
def boundary_points (cs : List CornerRec) : List (ℚ × ℚ) :=
  let pts := [0, 3, 1, 2].filterMap fun idx =>
    ((cs.filter fun c => decide (c.corner_index = idx)).head?).map fun c => (c.X, c.Y)
  match pts with
  | [] => []
  | p :: ps => (p :: ps) ++ [p]

/-- Scaled point of the corner stored at position `i` of the corner list
(corner `i` sits at position `i` by construction). -/
def cPt (cs : List CornerRec) (i : ℕ) : ℚ × ℚ :=
  (((cs.get? i).map fun c => (c.X, c.Y)).getD (0, 0))

/-- One grid line of `/grid-data-all`: the inline (resp. crossline) value
and its point sequence.  The per-point hover strings built alongside are
presentation text derived 1:1 from the same rows and are not modelled. -/
structure GridLine where
  idx : ℤ
  points : List (ℚ × ℚ)
deriving DecidableEq, Repr

/-- Grouping step of `grid_data_all` for one key column: walk the sorted
distinct key values, keep groups with at least two rows, and emit each
group's points in the table's natural row order. -/
def linesBy (keyf : Row → ℤ) (df : List Row) : List GridLine :=
  (sortInts (firstUniques (df.map keyf))).filterMap fun k =>
    let g := df.filter fun r => decide (keyf r = k)
    if 2 ≤ g.length then some ⟨k, g.map fun r => (r.x, r.y)⟩ else none

/-- `/grid-data-all`: inline lines and crossline lines over the
deduplicated scaled table (the two `total_*` counts of the response are the
lengths of these lists). -/
def grid_data_all (rows : List Row) (sgsRaw : ℚ) : List GridLine × List GridLine :=
  let df := read_all_segy_metadata rows sgsRaw
  (linesBy (fun r => r.inline) df, linesBy (fun r => r.xline) df)

/-- `point_to_line_distance` before the final `np.sqrt`: the squared
point-to-segment distance, with the perpendicular-foot parameter
`param = dot / len_sq` guarded by `len_sq != 0` (else `-1`) and clamped to
`[0, 1]`. -/
def sqDistPointSeg (p ls le : ℚ × ℚ) : ℚ :=
  let x := p.1
  let y := p.2
  let x1 := ls.1
  let y1 := ls.2
  let x2 := le.1
  let y2 := le.2
  let A := x - x1
  let B := y - y1
  let C := x2 - x1
  let D := y2 - y1
  let dot := A * C + B * D
  let len_sq := C * C + D * D
  let param := if len_sq ≠ 0 then dot / len_sq else -1
  let xx := if param < 0 then x1 else if 1 < param then x2 else x1 + param * C
  let yy := if param < 0 then y1 else if 1 < param then y2 else y1 + param * D
  let dx := x - xx
  let dy := y - yy
  dx * dx + dy * dy

/-- `point_to_line_distance`: the `np.sqrt` of the clamped squared
distance. -/
noncomputable def point_to_line_distance (p ls le : ℚ × ℚ) : ℝ :=
  Real.sqrt ((sqDistPointSeg p ls le : ℚ) : ℝ)

/-- Squared distance from `p` to the point of parameter `t` on the segment
from `s` to `e` (the comparison yardstick for the clamping claim). -/
noncomputable def segPointSq (p s e : ℚ × ℚ) (t : ℝ) : ℝ :=
  ((p.1 : ℝ) - ((s.1 : ℝ) + t * ((e.1 : ℝ) - (s.1 : ℝ)))) ^ 2 +
    ((p.2 : ℝ) - ((s.2 : ℝ) + t * ((e.2 : ℝ) - (s.2 : ℝ)))) ^ 2

/-- The fixed spatial tolerance of the edge associator (50 ground units). -/
def tolerance : ℚ := 50

/-- `point_to_line_distance(point, edge[0], edge[1]) < tolerance` for some
point of the line.  The real comparison `sqrt d < 50` is encoded by the
equivalent exact comparison `d < 50 * 50` so the associator stays
executable; the theorem `point_to_line_distance_lt_tolerance` proves the
two forms coincide. -/
def lineTouchesEdge (pts : List (ℚ × ℚ)) (a b : ℚ × ℚ) : Bool :=
  pts.any fun p => decide (sqDistPointSeg p a b < tolerance * tolerance)

/-- The per-edge line set of `boundary_edge_lines` for one key column: an
index value is appended (once, in unique-iteration order) precisely when
some point of its line is within tolerance of the edge — the inner `break`
only stops scanning further points of that line for the current edge — and
the list is sorted at the end. -/
def edgeKeyLines (keyf : Row → ℤ) (df : List Row) (a b : ℚ × ℚ) : List ℤ :=
  sortInts ((firstUniques (df.map keyf)).filter fun k =>
    lineTouchesEdge ((df.filter fun r => decide (keyf r = k)).map fun r => (r.x, r.y)) a b)

/-- The line sets of one boundary edge. -/
structure EdgeLines where
  inlines : List ℤ
  xlines : List ℤ
deriving DecidableEq, Repr

/-- The four boundary edges in the fixed order top, right, bottom, left,
from the first four boundary points. -/
def edgesOf (bpts : List (ℚ × ℚ)) : List ((ℚ × ℚ) × (ℚ × ℚ)) :=
  [(bpts.getD 0 (0, 0), bpts.getD 1 (0, 0)),
   (bpts.getD 1 (0, 0), bpts.getD 2 (0, 0)),
   (bpts.getD 2 (0, 0), bpts.getD 3 (0, 0)),
   (bpts.getD 3 (0, 0), bpts.getD 0 (0, 0))]

/-- Edge association proper: for each edge, the sorted inline and crossline
index sets. -/
def edge_lines_calc (df : List Row) (bpts : List (ℚ × ℚ)) : List EdgeLines :=
  (edgesOf bpts).map fun e =>
    ⟨edgeKeyLines (fun r => r.inline) df e.1 e.2,
     edgeKeyLines (fun r => r.xline) df e.1 e.2⟩

/-- `/boundary-edge-lines` given the deduplicated table and the closed
boundary polygon: strip the closing point, return the empty response
(modelled as `none`) when fewer than 4 points remain, else associate. -/
def boundary_edge_lines (df : List Row) (bClosed : List (ℚ × ℚ)) : Option (List EdgeLines) :=
  let bpts := bClosed.dropLast
  if bpts.length < 4 then none else some (edge_lines_calc df bpts)

/-- The full `/boundary-edge-lines` route: deduplicated table from
`read_all_segy_metadata`, boundary polygon from `survey_boundary` (which
fails when corner extraction fails, taking the whole response with it). -/
def boundary_edge_lines_route (rows : List Row) (sgsRaw : ℚ) : Option (List EdgeLines) :=
  (read_segy_metadata rows sgsRaw).bind fun cs =>
    boundary_edge_lines (read_all_segy_metadata rows sgsRaw) (boundary_points cs)

/-- The three-way normalization branch applied to `deg_1` in
`survey_boundary`. -/
noncomputable def normalize_deg (θ : ℝ) : ℝ :=
  if θ < 0 then 270 + θ else if θ ≤ 90 then 90 - θ else 450 - θ

/-- Orientation of `survey_boundary`:
`np.angle(complex(P3.x - P0.x, P3.y - P0.y), deg=True)` — that is,
`atan2(P3.y - P0.y, P3.x - P0.x)` in degrees, the argument of the complex
number with that real and imaginary part — then the three-way
normalization.  (The final `round(_, 2)` of the response is not part of the
normalization.) -/
noncomputable def orientation_deg (p0 p3 : ℚ × ℚ) : ℝ :=
  normalize_deg
    (Complex.arg ⟨(p3.1 : ℝ) - (p0.1 : ℝ), (p3.2 : ℝ) - (p0.2 : ℝ)⟩ * 180 / Real.pi)

/-- Python's `round(x, 2)` (tie behaviour is immaterial to the claims:
both sides of every statement use this same function). -/
noncomputable def round2 (x : ℝ) : ℝ := (round (x * 100) : ℤ) / 100

/-- The spec's `euclidean` distance between two scaled points. -/
noncomputable def euclideanDist (p q : ℚ × ℚ) : ℝ :=
  Real.sqrt (((p.1 - q.1 : ℚ) : ℝ) ^ 2 + ((p.2 - q.2 : ℚ) : ℝ) ^ 2)

/-- Scaled corner point `i` from the raw corner coordinate lists, with the
zero-substituted scale factor applied. -/
def scaledCorner (cdpx cdpy : Fin 4 → ℚ) (sgsRaw : ℚ) (i : Fin 4) : ℚ × ℚ :=
  let sgs := if sgsRaw = 0 then 1 else sgsRaw
  (apply_sgs_scaling (cdpx i) sgs, apply_sgs_scaling (cdpy i) sgs)

/-- The derived scalar metrics of `survey_boundary`. -/
structure SurveyMetrics where
  len1 : ℝ
  len2 : ℝ
  bin_size_il : ℝ
  bin_size_xl : ℝ
  area_sq_km : ℝ

/-- The metrics block of `survey_boundary`, computed from the four raw
corner coordinates in native order, the raw scale factor and the distinct
inline/crossline counts.  `(...) ** 0.5` on the nonnegative float sum of
squares is the square root. -/
noncomputable def survey_metrics (cdpx cdpy : Fin 4 → ℚ) (sgsRaw : ℚ)
    (nIl nXl : ℕ) : SurveyMetrics :=
  let sgs := if sgsRaw = 0 then 1 else sgsRaw
  let sx : Fin 4 → ℚ := fun i => apply_sgs_scaling (cdpx i) sgs
  let sy : Fin 4 → ℚ := fun i => apply_sgs_scaling (cdpy i) sgs
  let len1 : ℝ := Real.sqrt (((sx 0 - sx 3 : ℚ) : ℝ) ^ 2 + ((sy 0 - sy 3 : ℚ) : ℝ) ^ 2)
  let len2 : ℝ := Real.sqrt (((sx 0 - sx 2 : ℚ) : ℝ) ^ 2 + ((sy 0 - sy 2 : ℚ) : ℝ) ^ 2)
  let bin_il : ℝ := if 1 < nIl then round2 ((len2 / ((nIl : ℝ) - 1)) / |(sgs : ℝ)|) else 0
  let bin_xl : ℝ := if 1 < nXl then round2 ((len1 / ((nXl : ℝ) - 1)) / |(sgs : ℝ)|) else 0
  ⟨len1, len2, bin_il, bin_xl, round2 (len1 * len2 / 1000000)⟩

/-- Concrete survey of the edge-association scenario: one inline (index 1)
whose three points all sit at `y = 0`, crossing the bottom side of the
square `(0,0)–(1000,1000)`. -/
def rowsScenarioA : List Row := [⟨1, 1, 0, 0⟩, ⟨1, 2, 500, 0⟩, ⟨1, 3, 1000, 0⟩]

/-- Closed boundary polygon of the square survey with corners
`(0,0), (1000,0), (1000,1000), (0,1000)`. -/
def bptsScenarioA : List (ℚ × ℚ) := [(0, 0), (1000, 0), (1000, 1000), (0, 1000), (0, 0)]

/-- Concrete degenerate survey: four rows sharing one crossline value
(`C = 1`). -/
def rowsDegenC1 : List Row := [⟨1, 7, 0, 0⟩, ⟨2, 7, 0, 1⟩, ⟨3, 7, 0, 2⟩, ⟨4, 7, 0, 3⟩]

/-- Concrete survey whose last trace duplicates the `(inline, crossline)`
key `(2, 2)` of an earlier trace with different coordinates. -/
def rowsDup : List Row :=
  [⟨1, 1, 0, 0⟩, ⟨1, 2, 1, 0⟩, ⟨2, 1, 0, 1⟩, ⟨2, 2, 1, 1⟩, ⟨2, 2, 50, 50⟩]

/-- Concrete regular 2×2 survey. -/
def rowsGrid2 : List Row := [⟨1, 1, 0, 0⟩, ⟨1, 2, 1, 0⟩, ⟨2, 1, 0, 1⟩, ⟨2, 2, 1, 1⟩]

/-- Concrete survey where inline 1 has two rows and inline 2 only one. -/
def rowsOneTwo : List Row := [⟨1, 1, 0, 0⟩, ⟨1, 2, 1, 0⟩, ⟨2, 1, 0, 1⟩]

/-- Number of rows of a table carrying a given `(inline, crossline)` key. -/
def countKey (df : List Row) (key : ℤ × ℤ) : ℕ :=
  (df.filter fun r => decide ((r.inline, r.xline) = key)).length

/-- The zero-substituted scale factor (`sgs = 1.0` when the raw header
value is 0). -/
def effective_sgs (sgsRaw : ℚ) : ℚ := if sgsRaw = 0 then 1 else sgsRaw

end Seismic

namespace Seismic

/-- `scale(raw, factor)` satisfies the documented three-branch contract and
the three concrete assertions; the function is pure and total by
construction. -/
theorem apply_sgs_scaling_contract (raw f : ℚ) :
    apply_sgs_scaling raw 0 = raw ∧
    (f < 0 → apply_sgs_scaling raw f = raw / |f|) ∧
    (0 < f → apply_sgs_scaling raw f = raw * f) ∧
    apply_sgs_scaling 10 (-2) = 5 ∧
    apply_sgs_scaling 10 2 = 20 ∧
    apply_sgs_scaling 10 0 = 10 := by
  refine ⟨by simp [apply_sgs_scaling], ?_, ?_, by norm_num [apply_sgs_scaling],
    by norm_num [apply_sgs_scaling], by norm_num [apply_sgs_scaling]⟩
  · intro hf
    simp [apply_sgs_scaling, hf, ne_of_lt hf]
  · intro hf
    simp [apply_sgs_scaling, hf.ne', not_lt.mpr hf.le]

/-- Witness: the negative-factor branch of the contract at `raw = 10`,
`factor = -2`. -/
theorem apply_sgs_scaling_contract_witness :
    apply_sgs_scaling 10 (-2) = 10 / |(-2 : ℚ)| :=
  (apply_sgs_scaling_contract 10 (-2)).2.1 (by norm_num)

lemma mem_firstUniquesAux {x : ℤ} :
    ∀ (l seen : List ℤ), x ∈ firstUniquesAux l seen ↔ x ∈ l ∧ x ∉ seen := by
  intro l
  induction l with
  | nil => intro seen; simp [firstUniquesAux]
  | cons a l ih =>
    intro seen
    by_cases h : a ∈ seen
    · rw [firstUniquesAux, if_pos h, ih]
      constructor
      · rintro ⟨hl, hs⟩; exact ⟨List.mem_cons_of_mem _ hl, hs⟩
      · rintro ⟨hl, hs⟩
        rcases List.mem_cons.mp hl with rfl | hl
        · exact absurd h hs
        · exact ⟨hl, hs⟩
    · rw [firstUniquesAux, if_neg h]
      constructor
      · intro hx
        rcases List.mem_cons.mp hx with rfl | hx
        · exact ⟨List.mem_cons_self _ _, h⟩
        · obtain ⟨hl, hs⟩ := (ih _).mp hx
          exact ⟨List.mem_cons_of_mem _ hl,
            fun hmem => hs (List.mem_cons_of_mem _ hmem)⟩
      · rintro ⟨hl, hs⟩
        rcases List.mem_cons.mp hl with rfl | hl
        · exact List.mem_cons_self _ _
        · by_cases hxa : x = a
          · subst hxa; exact List.mem_cons_self _ _
          · exact List.mem_cons_of_mem _ ((ih _).mpr
              ⟨hl, fun hmem => (List.mem_cons.mp hmem).elim hxa hs⟩)

lemma mem_firstUniques {x : ℤ} (l : List ℤ) : x ∈ firstUniques l ↔ x ∈ l := by
  rw [firstUniques, mem_firstUniquesAux]
  simp

lemma length_firstUniquesAux_le :
    ∀ (l seen : List ℤ), (firstUniquesAux l seen).length ≤ l.length := by
  intro l
  induction l with
  | nil => intro seen; simp [firstUniquesAux]
  | cons a l ih =>
    intro seen
    by_cases h : a ∈ seen
    · rw [firstUniquesAux, if_pos h]
      exact le_trans (ih seen) (Nat.le_succ _)
    · rw [firstUniquesAux, if_neg h]
      simpa using Nat.succ_le_succ (ih (a :: seen))

lemma firstUniques_ne_nil {l : List ℤ} (h : l ≠ []) : firstUniques l ≠ [] := by
  cases l with
  | nil => exact absurd rfl h
  | cons a l => simp [firstUniques, firstUniquesAux]

lemma nodup_firstUniquesAux :
    ∀ (l seen : List ℤ), (firstUniquesAux l seen).Nodup := by
  intro l
  induction l with
  | nil => intro seen; simp [firstUniquesAux]
  | cons a l ih =>
    intro seen
    by_cases h : a ∈ seen
    · rw [firstUniquesAux, if_pos h]; exact ih seen
    · rw [firstUniquesAux, if_neg h]
      refine List.Nodup.cons ?_ (ih (a :: seen))
      intro hmem
      exact ((mem_firstUniquesAux l (a :: seen)).mp hmem).2 (List.mem_cons_self _ _)

lemma mem_insertSorted {x a : ℤ} :
    ∀ l : List ℤ, x ∈ insertSorted a l ↔ x = a ∨ x ∈ l := by
  intro l
  induction l with
  | nil => simp [insertSorted]
  | cons b l ih =>
    by_cases h : a ≤ b
    · rw [insertSorted, if_pos h]; simp
    · rw [insertSorted, if_neg h]
      simp only [List.mem_cons, ih]
      tauto

lemma mem_sortInts {x : ℤ} : ∀ l : List ℤ, x ∈ sortInts l ↔ x ∈ l := by
  intro l
  induction l with
  | nil => simp [sortInts]
  | cons a l ih =>
    rw [sortInts, mem_insertSorted]
    simp [ih]

lemma nodup_insertSorted {a : ℤ} :
    ∀ {l : List ℤ}, l.Nodup → a ∉ l → (insertSorted a l).Nodup := by
  intro l
  induction l with
  | nil => intro _ _; simp [insertSorted]
  | cons b l ih =>
    intro hnd ha
    by_cases h : a ≤ b
    · rw [insertSorted, if_pos h]
      exact List.Nodup.cons ha hnd
    · rw [insertSorted, if_neg h]
      refine List.Nodup.cons ?_ (ih (List.Nodup.of_cons hnd)
        (fun hmem => ha (List.mem_cons_of_mem _ hmem)))
      intro hmem
      rcases (mem_insertSorted _).mp hmem with rfl | hmem
      · exact ha (List.mem_cons_self _ _)
      · exact (List.nodup_cons.mp hnd).1 hmem

lemma nodup_sortInts : ∀ {l : List ℤ}, l.Nodup → (sortInts l).Nodup := by
  intro l
  induction l with
  | nil => intro _; simp [sortInts]
  | cons a l ih =>
    intro hnd
    rw [sortInts]
    exact nodup_insertSorted (ih (List.Nodup.of_cons hnd))
      (fun hmem => (List.nodup_cons.mp hnd).1 ((mem_sortInts _).mp hmem))

/-- The claim's corrected core: corner extraction succeeds exactly on
nonempty tables.  The four native corner positions `0`, `N-1`, `N-C`,
`C-1` are always in range because `1 ≤ C ≤ N` whenever the table is
nonempty; no degeneracy check (`C ≤ 1`, `N < 4`) exists in the code. -/
theorem read_segy_metadata_isSome_iff (rows : List Row) (sgsRaw : ℚ) :
    (read_segy_metadata rows sgsRaw).isSome = true ↔ rows ≠ [] := by
  constructor
  · intro h hnil
    subst hnil
    simp [read_segy_metadata] at h
  · intro h
    have hN : 0 < rows.length := List.length_pos.mpr h
    have hC1 : 0 < (firstUniques (rows.map (·.xline))).length := by
      refine List.length_pos.mpr (firstUniques_ne_nil ?_)
      simpa using h
    have hCN : (firstUniques (rows.map (·.xline))).length ≤ rows.length := by
      calc (firstUniques (rows.map (·.xline))).length
          ≤ (rows.map (·.xline)).length := length_firstUniquesAux_le _ _
        _ = rows.length := List.length_map _ _
    have h1 : rows.length - 1 < rows.length := Nat.sub_lt hN one_pos
    have h2 : rows.length - (firstUniques (rows.map (·.xline))).length < rows.length :=
      Nat.sub_lt hN hC1
    have h3 : (firstUniques (rows.map (·.xline))).length - 1 < rows.length :=
      Nat.lt_of_le_of_lt (Nat.sub_le_sub_right hCN 1) h1
    simp only [read_segy_metadata]
    rw [List.get?_eq_get hN, List.get?_eq_get h1, List.get?_eq_get h2, List.get?_eq_get h3]
    rfl

/-- Counterexample to the degenerate-input claim: a table with only one
distinct crossline value (`C = 1 ≤ 1`) is accepted by corner extraction —
it returns a full corner list instead of failing, so no `GeometryError`
(and no failure of any kind) occurs on this degenerate input. -/
theorem read_segy_metadata_accepts_degenerate :
    (firstUniques (rowsDegenC1.map (·.xline))).length = 1 ∧
    rowsDegenC1.length = 4 ∧
    (read_segy_metadata rowsDegenC1 1).isSome = true := by
  refine ⟨by decide, by decide, ?_⟩
  norm_num [read_segy_metadata, rowsDegenC1, firstUniques, firstUniquesAux,
    List.get?]

lemma countKey_dedupKeyAux :
    ∀ (l : List Row) (seen : List (ℤ × ℤ)) (key : ℤ × ℤ),
      ((dedupKeyAux l seen).filter fun r => decide ((r.inline, r.xline) = key)).length =
        if key ∈ seen then 0
        else if key ∈ l.map (fun r => (r.inline, r.xline)) then 1 else 0 := by
  intro l
  induction l with
  | nil =>
    intro seen key
    simp [dedupKeyAux]
  | cons r rs ih =>
    intro seen key
    rw [dedupKeyAux]
    by_cases hr : (r.inline, r.xline) ∈ seen
    · rw [if_pos hr, ih]
      by_cases hk : key ∈ seen
      · rw [if_pos hk, if_pos hk]
      · have hne : ¬ key = (r.inline, r.xline) := fun he => hk (by rw [he]; exact hr)
        rw [if_neg hk, if_neg hk]
        simp only [List.map_cons, List.mem_cons, or_iff_right hne]
    · rw [if_neg hr, List.filter_cons]
      by_cases hk : (r.inline, r.xline) = key
      · rw [if_pos (by simp [hk]), List.length_cons, ih,
          if_pos (show key ∈ ((r.inline, r.xline) : ℤ × ℤ) :: seen by
            rw [hk]; exact List.mem_cons_self _ _)]
        have hkseen : key ∉ seen := fun hs => hr (hk ▸ hs)
        rw [if_neg hkseen,
          if_pos (show key ∈ (r :: rs).map (fun r => (r.inline, r.xline)) by
            simp only [List.map_cons, List.mem_cons]; exact Or.inl hk.symm)]
      · have hne : ¬ key = (r.inline, r.xline) := fun he => hk he.symm
        rw [if_neg (by simp [hk]), ih]
        by_cases hkseen : key ∈ seen
        · rw [if_pos (List.mem_cons_of_mem _ hkseen), if_pos hkseen]
        · rw [if_neg (show key ∉ ((r.inline, r.xline) : ℤ × ℤ) :: seen by
            simp only [List.mem_cons]; rintro (he | hs)
            exacts [hne he, hkseen hs]), if_neg hkseen]
          simp only [List.map_cons, List.mem_cons, or_iff_right hne]

lemma keys_map_scaleRow (rows : List Row) (sgs : ℚ) :
    (rows.map (scaleRow sgs)).map (fun r => (r.inline, r.xline)) =
      rows.map (fun r => (r.inline, r.xline)) := by
  rw [List.map_map]
  rfl

/-- Amended deduplication claim: in the deduplicated table (the map-points
output) every `(inline, crossline)` key present in the input survives in
exactly one row, and the grid-line and edge-association queries consume
that same deduplicated table; the boundary/corner query does not (see the
counterexample). -/
theorem dedup_one_row_per_key (rows : List Row) (sgsRaw : ℚ) (key : ℤ × ℤ) :
    countKey (map_data rows sgsRaw) key =
      (if key ∈ rows.map (fun r => (r.inline, r.xline)) then 1 else 0) ∧
    grid_data_all rows sgsRaw =
      (linesBy (fun r => r.inline) (map_data rows sgsRaw),
       linesBy (fun r => r.xline) (map_data rows sgsRaw)) ∧
    boundary_edge_lines_route rows sgsRaw =
      (read_segy_metadata rows sgsRaw).bind fun cs =>
        boundary_edge_lines (map_data rows sgsRaw) (boundary_points cs) := by
  refine ⟨?_, rfl, rfl⟩
  show ((dedupKeyAux (rows.map (scaleRow _)) []).filter
    fun r => decide ((r.inline, r.xline) = key)).length = _
  rw [countKey_dedupKeyAux, keys_map_scaleRow]
  simp

/-- Counterexample to the claim that deduplication holds in all downstream
outputs: with a duplicated key `(2, 2)`, the corner query returns the
dropped duplicate row (coordinates `(50, 50)`) as corner 1, while the
deduplicated table — the source of every other query — kept the first
representative `(1, 1)` of that key. -/
theorem corner_query_bypasses_dedup :
    read_segy_metadata rowsDup 1 =
      some [⟨0, 0, 0, 0, 1, 1, 0, 1⟩, ⟨50, 50, 50, 50, 2, 2, 1, 1⟩,
        ⟨1, 1, 1, 1, 2, 2, 2, 1⟩, ⟨1, 0, 1, 0, 1, 2, 3, 1⟩] ∧
    map_data rowsDup 1 = [⟨1, 1, 0, 0⟩, ⟨1, 2, 1, 0⟩, ⟨2, 1, 0, 1⟩, ⟨2, 2, 1, 1⟩] := by
  constructor
  · norm_num [read_segy_metadata, rowsDup, firstUniques, firstUniquesAux,
      mkCorner, apply_sgs_scaling, List.get?]
  · norm_num [map_data, read_all_segy_metadata, dedupKey, dedupKeyAux,
      scaleRow, apply_sgs_scaling, rowsDup]

/-- For every successful corner extraction, the boundary polygon is the
four scaled corner points in the fixed permuted order `[0, 3, 1, 2]`
followed by a copy of the first point: exactly 5 points with
`boundary[0] = boundary[4]`. -/
theorem boundary_polygon_closed (rows : List Row) (sgsRaw : ℚ) (cs : List CornerRec)
    (h : read_segy_metadata rows sgsRaw = some cs) :
    boundary_points cs = [cPt cs 0, cPt cs 3, cPt cs 1, cPt cs 2, cPt cs 0] ∧
    (boundary_points cs).length = 5 ∧
    (boundary_points cs).get? 0 = (boundary_points cs).get? 4 := by
  simp only [read_segy_metadata, Option.bind_eq_some, Option.map_eq_some'] at h
  obtain ⟨r0, h0, r1, h1, r2, h2, r3, h3, rfl⟩ := h
  exact ⟨rfl, rfl, rfl⟩

lemma mem_linesBy (keyf : Row → ℤ) (df : List Row) (gl : GridLine) :
    gl ∈ linesBy keyf df ↔
      gl.idx ∈ df.map keyf ∧
      2 ≤ (df.filter fun r => decide (keyf r = gl.idx)).length ∧
      gl.points = (df.filter fun r => decide (keyf r = gl.idx)).map fun r => (r.x, r.y) := by
  simp only [linesBy, List.mem_filterMap]
  constructor
  · rintro ⟨k, hk, hf⟩
    by_cases h2 : 2 ≤ (df.filter fun r => decide (keyf r = k)).length
    · rw [if_pos h2] at hf
      injection hf with hf
      subst hf
      rw [mem_sortInts, mem_firstUniques] at hk
      exact ⟨hk, h2, rfl⟩
    · rw [if_neg h2] at hf
      exact absurd hf (by simp)
  · rintro ⟨hmem, h2, hpts⟩
    refine ⟨gl.idx, ?_, ?_⟩
    · rw [mem_sortInts, mem_firstUniques]
      exact hmem
    · rw [if_pos h2, ← hpts]

lemma filterMap_idx_count (k : ℤ) (f : ℤ → Option GridLine)
    (hf : ∀ a gl, f a = some gl → gl.idx = a) :
    ∀ L : List ℤ, L.Nodup →
      ((L.filterMap f).filter fun gl => decide (gl.idx = k)).length ≤ 1 := by
  intro L
  induction L with
  | nil => intro _; simp
  | cons a L ih =>
    intro hnd
    rw [List.filterMap_cons]
    cases hfa : f a with
    | none => exact ih (List.Nodup.of_cons hnd)
    | some gl =>
      rw [List.filter_cons]
      by_cases hgl : gl.idx = k
      · rw [if_pos (by simp [hgl])]
        rw [List.length_cons]
        have hrest : ((L.filterMap f).filter fun gl => decide (gl.idx = k)).length = 0 := by
          rw [List.length_eq_zero, List.filter_eq_nil_iff]
          intro gl' hgl'
          obtain ⟨a', ha', hfa'⟩ := List.mem_filterMap.mp hgl'
          have : gl'.idx = a' := hf a' gl' hfa'
          simp only [decide_eq_true_eq, this]
          rintro rfl
          exact (List.nodup_cons.mp hnd).1 (by rwa [← hgl, hf a gl hfa] at ha')
        omega
      · rw [if_neg (by simp [hgl])]
        exact ih (List.Nodup.of_cons hnd)

lemma linesBy_idx_count (keyf : Row → ℤ) (df : List Row) (k : ℤ) :
    ((linesBy keyf df).filter fun gl => decide (gl.idx = k)).length ≤ 1 := by
  simp only [linesBy]
  refine filterMap_idx_count k _ ?_ _ (nodup_sortInts (nodup_firstUniquesAux _ _))
  intro a gl hf
  by_cases h2 : 2 ≤ (df.filter fun r => decide (keyf r = a)).length
  · rw [if_pos h2] at hf
    injection hf with hf
    subst hf
    rfl
  · rw [if_neg h2] at hf
    exact absurd hf (by simp)

lemma linesBy_spec (keyf : Row → ℤ) (df : List Row) (k : ℤ) :
    ((df.filter fun r => decide (keyf r = k)).length ≤ 1 →
      ∀ gl ∈ linesBy keyf df, gl.idx ≠ k) ∧
    (2 ≤ (df.filter fun r => decide (keyf r = k)).length →
      GridLine.mk k ((df.filter fun r => decide (keyf r = k)).map fun r => (r.x, r.y)) ∈
        linesBy keyf df ∧
      ((linesBy keyf df).filter fun gl => decide (gl.idx = k)).length = 1) := by
  constructor
  · intro h1 gl hgl heq
    obtain ⟨-, h2, -⟩ := (mem_linesBy keyf df gl).mp hgl
    rw [heq] at h2
    omega
  · intro h2
    have hne : (df.filter fun r => decide (keyf r = k)) ≠ [] := by
      intro hnil
      rw [hnil] at h2
      simp at h2
    obtain ⟨r, hr⟩ := List.exists_mem_of_ne_nil _ hne
    have hrdf := List.mem_filter.mp hr
    have hmem : k ∈ df.map keyf := by
      refine List.mem_map.mpr ⟨r, hrdf.1, ?_⟩
      have := hrdf.2
      simpa using this
    have hin : GridLine.mk k ((df.filter fun r => decide (keyf r = k)).map
        fun r => (r.x, r.y)) ∈ linesBy keyf df :=
      (mem_linesBy keyf df _).mpr ⟨hmem, h2, rfl⟩
    refine ⟨hin, le_antisymm (linesBy_idx_count keyf df k) ?_⟩
    have : GridLine.mk k ((df.filter fun r => decide (keyf r = k)).map
        fun r => (r.x, r.y)) ∈ (linesBy keyf df).filter fun gl => decide (gl.idx = k) :=
      List.mem_filter.mpr ⟨hin, by simp⟩
    exact List.length_pos.mpr (List.ne_nil_of_mem this)

/-- Grid-line query: an inline (resp. crossline) group with at most one row
never appears in the output, and a group with at least two rows appears as
exactly one grid line whose points are the group's rows in the table's
natural order. -/
theorem grid_lines_exclusion_inclusion (rows : List Row) (sgsRaw : ℚ) (k : ℤ) :
    (((read_all_segy_metadata rows sgsRaw).filter
        fun r => decide (r.inline = k)).length ≤ 1 →
      ∀ gl ∈ (grid_data_all rows sgsRaw).1, gl.idx ≠ k) ∧
    (2 ≤ ((read_all_segy_metadata rows sgsRaw).filter
        fun r => decide (r.inline = k)).length →
      GridLine.mk k (((read_all_segy_metadata rows sgsRaw).filter
          fun r => decide (r.inline = k)).map fun r => (r.x, r.y)) ∈
        (grid_data_all rows sgsRaw).1 ∧
      ((grid_data_all rows sgsRaw).1.filter fun gl => decide (gl.idx = k)).length = 1) ∧
    (((read_all_segy_metadata rows sgsRaw).filter
        fun r => decide (r.xline = k)).length ≤ 1 →
      ∀ gl ∈ (grid_data_all rows sgsRaw).2, gl.idx ≠ k) ∧
    (2 ≤ ((read_all_segy_metadata rows sgsRaw).filter
        fun r => decide (r.xline = k)).length →
      GridLine.mk k (((read_all_segy_metadata rows sgsRaw).filter
          fun r => decide (r.xline = k)).map fun r => (r.x, r.y)) ∈
        (grid_data_all rows sgsRaw).2 ∧
      ((grid_data_all rows sgsRaw).2.filter fun gl => decide (gl.idx = k)).length = 1) :=
  ⟨(linesBy_spec (fun r => r.inline) (read_all_segy_metadata rows sgsRaw) k).1,
   (linesBy_spec (fun r => r.inline) (read_all_segy_metadata rows sgsRaw) k).2,
   (linesBy_spec (fun r => r.xline) (read_all_segy_metadata rows sgsRaw) k).1,
   (linesBy_spec (fun r => r.xline) (read_all_segy_metadata rows sgsRaw) k).2⟩

/-- Witness for the grid-line theorem: in the concrete survey where inline
1 has two rows, inline 1 appears as one line with both points in row
order; a crossline value absent from the table never appears. -/
theorem grid_lines_exclusion_inclusion_witness :
    (GridLine.mk 1 (((read_all_segy_metadata rowsOneTwo 1).filter
        fun r => decide (r.inline = 1)).map fun r => (r.x, r.y)) ∈
      (grid_data_all rowsOneTwo 1).1 ∧
      ((grid_data_all rowsOneTwo 1).1.filter fun gl => decide (gl.idx = 1)).length = 1) ∧
    (∀ gl ∈ (grid_data_all rowsOneTwo 1).2, gl.idx ≠ 99) :=
  ⟨(grid_lines_exclusion_inclusion rowsOneTwo 1 1).2.1 (by decide),
   (grid_lines_exclusion_inclusion rowsOneTwo 1 99).2.2.1 (by decide)⟩

lemma sqDistPointSeg_nonneg (p ls le : ℚ × ℚ) : 0 ≤ sqDistPointSeg p ls le := by
  simp only [sqDistPointSeg]
  exact add_nonneg (mul_self_nonneg _) (mul_self_nonneg _)

/-- The executable tolerance test agrees with the code's comparison of the
square-rooted distance against 50. -/
lemma point_to_line_distance_lt_tolerance (p a b : ℚ × ℚ) :
    point_to_line_distance p a b < 50 ↔
      sqDistPointSeg p a b < tolerance * tolerance := by
  rw [point_to_line_distance, Real.sqrt_lt' (by norm_num : (0 : ℝ) < 50)]
  rw [show ((50 : ℝ)) ^ 2 = ((2500 : ℚ) : ℝ) by norm_num, Rat.cast_lt]
  norm_num [tolerance]

lemma mem_edgeKeyLines (keyf : Row → ℤ) (df : List Row) (a b : ℚ × ℚ) (k : ℤ) :
    k ∈ edgeKeyLines keyf df a b ↔
      ∃ r ∈ df, keyf r = k ∧ point_to_line_distance (r.x, r.y) a b < 50 := by
  simp only [edgeKeyLines]
  rw [mem_sortInts, List.mem_filter, mem_firstUniques]
  constructor
  · rintro ⟨-, htouch⟩
    simp only [lineTouchesEdge, List.any_eq_true, List.mem_map,
      decide_eq_true_eq] at htouch
    obtain ⟨p, ⟨r, hrf, rfl⟩, hd⟩ := htouch
    obtain ⟨hrdf, hrk⟩ := List.mem_filter.mp hrf
    exact ⟨r, hrdf, by simpa using hrk,
      (point_to_line_distance_lt_tolerance _ _ _).mpr hd⟩
  · rintro ⟨r, hr, hk, hd⟩
    refine ⟨List.mem_map.mpr ⟨r, hr, hk⟩, ?_⟩
    simp only [lineTouchesEdge, List.any_eq_true, List.mem_map, decide_eq_true_eq]
    exact ⟨(r.x, r.y), ⟨r, List.mem_filter.mpr ⟨hr, by simp [hk]⟩, rfl⟩,
      (point_to_line_distance_lt_tolerance _ _ _).mp hd⟩

lemma edge_lines_calc_getD (df : List Row) (bpts : List (ℚ × ℚ)) (i : ℕ)
    (hi : i < 4) :
    (edge_lines_calc df bpts).getD i ⟨[], []⟩ =
      ⟨edgeKeyLines (fun r => r.inline) df
          ((edgesOf bpts).getD i ((0, 0), (0, 0))).1
          ((edgesOf bpts).getD i ((0, 0), (0, 0))).2,
        edgeKeyLines (fun r => r.xline) df
          ((edgesOf bpts).getD i ((0, 0), (0, 0))).1
          ((edgesOf bpts).getD i ((0, 0), (0, 0))).2⟩ := by
  interval_cases i <;> rfl

/-- Amended edge-association claim: the `break` only stops scanning
further points of the current line for the current edge, so every edge is
tested independently — a line index belongs to edge `i`'s set exactly when
some point of that line is within the 50-unit tolerance of edge `i`,
regardless of earlier edges; an index may therefore appear in several
edges' sets. -/
theorem edge_association_membership (df : List Row) (b : List (ℚ × ℚ))
    (h : ¬ b.dropLast.length < 4) (i : ℕ) (hi : i < 4) (k : ℤ) :
    boundary_edge_lines df b = some (edge_lines_calc df b.dropLast) ∧
    (k ∈ ((edge_lines_calc df b.dropLast).getD i ⟨[], []⟩).inlines ↔
      ∃ r ∈ df, r.inline = k ∧
        point_to_line_distance (r.x, r.y)
          ((edgesOf b.dropLast).getD i ((0, 0), (0, 0))).1
          ((edgesOf b.dropLast).getD i ((0, 0), (0, 0))).2 < 50) ∧
    (k ∈ ((edge_lines_calc df b.dropLast).getD i ⟨[], []⟩).xlines ↔
      ∃ r ∈ df, r.xline = k ∧
        point_to_line_distance (r.x, r.y)
          ((edgesOf b.dropLast).getD i ((0, 0), (0, 0))).1
          ((edgesOf b.dropLast).getD i ((0, 0), (0, 0))).2 < 50) := by
  refine ⟨?_, ?_, ?_⟩
  · simp only [boundary_edge_lines]
    rw [if_neg h]
  · rw [edge_lines_calc_getD df b.dropLast i hi]
    exact mem_edgeKeyLines _ df _ _ k
  · rw [edge_lines_calc_getD df b.dropLast i hi]
    exact mem_edgeKeyLines _ df _ _ k

/-- Witness for the amended edge-association claim at the square-survey
scenario. -/
theorem edge_association_membership_witness :
    boundary_edge_lines rowsScenarioA bptsScenarioA =
      some (edge_lines_calc rowsScenarioA bptsScenarioA.dropLast) :=
  (edge_association_membership rowsScenarioA bptsScenarioA (by decide) 1
    (by norm_num) 1).1

/-- Counterexample to the first-match claim: in the square survey with an
inline lying along the bottom side `y = 0` (the "top" edge of the fixed
enumeration), inline 1 is assigned to edge 0 (top) *and* edge 1 (right)
*and* edge 3 (left) — its endpoints sit on the shared corners — so its
index appears in three edges' sets, not at most one. -/
theorem edge_association_multiple_edges :
    (boundary_edge_lines rowsScenarioA bptsScenarioA).map (fun el =>
      ((el.getD 0 ⟨[], []⟩).inlines, (el.getD 1 ⟨[], []⟩).inlines,
        (el.getD 3 ⟨[], []⟩).inlines)) = some ([1], [1], [1]) := by
  norm_num [boundary_edge_lines, edge_lines_calc, edgesOf, edgeKeyLines,
    lineTouchesEdge, sqDistPointSeg, tolerance, firstUniques, firstUniquesAux,
    sortInts, insertSorted, rowsScenarioA, bptsScenarioA, List.dropLast,
    List.filter, List.any, List.map]

lemma normalize_deg_mem {θ : ℝ} (h1 : -180 < θ) (h2 : θ ≤ 180) :
    0 ≤ normalize_deg θ ∧ normalize_deg θ ≤ 360 := by
  rw [normalize_deg]
  split_ifs with ha hb
  · constructor <;> linarith
  · push_neg at ha
    constructor <;> linarith
  · push_neg at ha hb
    constructor <;> linarith

/-- Amended orientation claim: the normalized orientation always lies in
`[0, 360]`; in the degenerate case `P3 = P0` the code does not fail —
`atan2(0, 0)` is `0` and the orientation is `90` (no division occurs
anywhere in the computation). -/
theorem orientation_in_range_and_total :
    (∀ p0 p3 : ℚ × ℚ, 0 ≤ orientation_deg p0 p3 ∧ orientation_deg p0 p3 ≤ 360) ∧
    (∀ p : ℚ × ℚ, orientation_deg p p = 90) := by
  constructor
  · intro p0 p3
    rw [orientation_deg]
    obtain ⟨h1, h2⟩ :=
      Complex.arg_mem_Ioc ⟨(p3.1 : ℝ) - (p0.1 : ℝ), (p3.2 : ℝ) - (p0.2 : ℝ)⟩
    have hpi := Real.pi_pos
    apply normalize_deg_mem
    · rw [lt_div_iff₀ hpi]
      nlinarith
    · rw [div_le_iff₀ hpi]
      nlinarith
  · intro p
    rw [orientation_deg]
    rw [show (⟨(p.1 : ℝ) - (p.1 : ℝ), (p.2 : ℝ) - (p.2 : ℝ)⟩ : ℂ) = 0 by
      simp [Complex.ext_iff]]
    rw [Complex.arg_zero, normalize_deg]
    norm_num

/-- Counterexample to the degenerate-orientation claim: at `P3 = P0` the
code raises nothing — the orientation computation returns the plain value
`90` instead of failing with a `GeometryError`. -/
theorem orientation_degenerate_returns_90 :
    orientation_deg ((0 : ℚ), (0 : ℚ)) ((0 : ℚ), (0 : ℚ)) = 90 := by
  rw [orientation_deg]
  rw [show (⟨(((0 : ℚ) : ℝ)) - (((0 : ℚ) : ℝ)), (((0 : ℚ) : ℝ)) - (((0 : ℚ) : ℝ))⟩ : ℂ) = 0 by
    simp [Complex.ext_iff]]
  rw [Complex.arg_zero, normalize_deg]
  norm_num

/-- The metrics block satisfies the spec formulas: `len1`/`len2` are the
Euclidean distances from scaled corner 0 to corners 3 and 2 (native
order), bin sizes follow the guarded `round((len / (count - 1)) / |sgs|, 2)`
formula, and the area is `round(len1 * len2 / 1e6, 2)`. -/
theorem survey_metrics_formulas (cdpx cdpy : Fin 4 → ℚ) (sgsRaw : ℚ) (nIl nXl : ℕ) :
    (survey_metrics cdpx cdpy sgsRaw nIl nXl).len1 =
      euclideanDist (scaledCorner cdpx cdpy sgsRaw 0) (scaledCorner cdpx cdpy sgsRaw 3) ∧
    (survey_metrics cdpx cdpy sgsRaw nIl nXl).len2 =
      euclideanDist (scaledCorner cdpx cdpy sgsRaw 0) (scaledCorner cdpx cdpy sgsRaw 2) ∧
    (survey_metrics cdpx cdpy sgsRaw nIl nXl).bin_size_il =
      (if 1 < nIl then
        round2 ((euclideanDist (scaledCorner cdpx cdpy sgsRaw 0)
            (scaledCorner cdpx cdpy sgsRaw 2) / ((nIl : ℝ) - 1)) /
          |((effective_sgs sgsRaw : ℚ) : ℝ)|)
      else 0) ∧
    (survey_metrics cdpx cdpy sgsRaw nIl nXl).bin_size_xl =
      (if 1 < nXl then
        round2 ((euclideanDist (scaledCorner cdpx cdpy sgsRaw 0)
            (scaledCorner cdpx cdpy sgsRaw 3) / ((nXl : ℝ) - 1)) /
          |((effective_sgs sgsRaw : ℚ) : ℝ)|)
      else 0) ∧
    (survey_metrics cdpx cdpy sgsRaw nIl nXl).area_sq_km =
      round2 (euclideanDist (scaledCorner cdpx cdpy sgsRaw 0)
          (scaledCorner cdpx cdpy sgsRaw 3) *
        euclideanDist (scaledCorner cdpx cdpy sgsRaw 0)
          (scaledCorner cdpx cdpy sgsRaw 2) / 1000000) :=
  ⟨rfl, rfl, rfl, rfl, rfl⟩

/-- The distance helper is total on a zero-length edge: with coincident
endpoints the squared length is 0, the guarded parameter stays `-1`, the
`param < 0` branch clamps to the start endpoint, and the result is the
plain point-to-point distance — no division happens. -/
theorem point_to_line_distance_degenerate_edge (p s : ℚ × ℚ) :
    sqDistPointSeg p s s =
      (p.1 - s.1) * (p.1 - s.1) + (p.2 - s.2) * (p.2 - s.2) ∧
    point_to_line_distance p s s =
      Real.sqrt (((p.1 - s.1) * (p.1 - s.1) + (p.2 - s.2) * (p.2 - s.2) : ℚ) : ℝ) := by
  have h : sqDistPointSeg p s s =
      (p.1 - s.1) * (p.1 - s.1) + (p.2 - s.2) * (p.2 - s.2) := by
    simp only [sqDistPointSeg, sub_self, mul_zero, zero_mul, add_zero]
    norm_num
  exact ⟨h, by rw [point_to_line_distance, h]⟩

/-- Witness for the boundary-polygon theorem at the concrete 2×2 survey. -/
theorem boundary_polygon_closed_witness :
    (boundary_points [⟨0, 0, 0, 0, 1, 1, 0, 1⟩, ⟨1, 1, 1, 1, 2, 2, 1, 1⟩,
        ⟨0, 1, 0, 1, 2, 1, 2, 1⟩, ⟨1, 0, 1, 0, 1, 2, 3, 1⟩]).get? 0 =
      (boundary_points [⟨0, 0, 0, 0, 1, 1, 0, 1⟩, ⟨1, 1, 1, 1, 2, 2, 1, 1⟩,
        ⟨0, 1, 0, 1, 2, 1, 2, 1⟩, ⟨1, 0, 1, 0, 1, 2, 3, 1⟩]).get? 4 :=
  (boundary_polygon_closed rowsGrid2 1 _ (by
    norm_num [read_segy_metadata, rowsGrid2, firstUniques, firstUniquesAux,
      mkCorner, apply_sgs_scaling, List.get?])).2.2

lemma sqDistPointSeg_le_segPointSq (p s e : ℚ × ℚ) (t : ℝ) (h0 : 0 ≤ t) (h1 : t ≤ 1) :
    ((sqDistPointSeg p s e : ℚ) : ℝ) ≤ segPointSq p s e t := by
  obtain ⟨x, y⟩ := p
  obtain ⟨x1, y1⟩ := s
  obtain ⟨x2, y2⟩ := e
  simp only [sqDistPointSeg, segPointSq]
  split_ifs with hL hneg hgt h4 h5
  · -- param < 0 : clamped to the start endpoint
    have hLpos : (0 : ℚ) < (x2 - x1) * (x2 - x1) + (y2 - y1) * (y2 - y1) :=
      lt_of_le_of_ne (add_nonneg (mul_self_nonneg _) (mul_self_nonneg _)) (Ne.symm hL)
    have hdot : (x - x1) * (x2 - x1) + (y - y1) * (y2 - y1) < 0 := by
      by_contra hcon
      push_neg at hcon
      exact absurd (div_nonneg hcon hLpos.le) (not_le.mpr hneg)
    have hLR : (0 : ℝ) < ((x2 : ℝ) - (x1 : ℝ)) * ((x2 : ℝ) - (x1 : ℝ)) +
        ((y2 : ℝ) - (y1 : ℝ)) * ((y2 : ℝ) - (y1 : ℝ)) := by exact_mod_cast hLpos
    have hdR : ((x : ℝ) - (x1 : ℝ)) * ((x2 : ℝ) - (x1 : ℝ)) +
        ((y : ℝ) - (y1 : ℝ)) * ((y2 : ℝ) - (y1 : ℝ)) < 0 := by exact_mod_cast hdot
    push_cast
    nlinarith [mul_nonneg (mul_nonneg h0 h0) hLR.le,
      mul_nonneg h0 (neg_nonneg.mpr hdR.le)]
  · -- param > 1 : clamped to the end endpoint
    have hLpos : (0 : ℚ) < (x2 - x1) * (x2 - x1) + (y2 - y1) * (y2 - y1) :=
      lt_of_le_of_ne (add_nonneg (mul_self_nonneg _) (mul_self_nonneg _)) (Ne.symm hL)
    have hdot : (x2 - x1) * (x2 - x1) + (y2 - y1) * (y2 - y1) <
        (x - x1) * (x2 - x1) + (y - y1) * (y2 - y1) := (one_lt_div hLpos).mp hgt
    have hLR : (0 : ℝ) < ((x2 : ℝ) - (x1 : ℝ)) * ((x2 : ℝ) - (x1 : ℝ)) +
        ((y2 : ℝ) - (y1 : ℝ)) * ((y2 : ℝ) - (y1 : ℝ)) := by exact_mod_cast hLpos
    have hdR : ((x2 : ℝ) - (x1 : ℝ)) * ((x2 : ℝ) - (x1 : ℝ)) +
        ((y2 : ℝ) - (y1 : ℝ)) * ((y2 : ℝ) - (y1 : ℝ)) <
        ((x : ℝ) - (x1 : ℝ)) * ((x2 : ℝ) - (x1 : ℝ)) +
        ((y : ℝ) - (y1 : ℝ)) * ((y2 : ℝ) - (y1 : ℝ)) := by exact_mod_cast hdot
    have e1 : (0 : ℝ) ≤ 1 - t := by linarith
    have e2 : (0 : ℝ) ≤ 2 * (((x : ℝ) - (x1 : ℝ)) * ((x2 : ℝ) - (x1 : ℝ)) +
        ((y : ℝ) - (y1 : ℝ)) * ((y2 : ℝ) - (y1 : ℝ))) -
        (1 + t) * (((x2 : ℝ) - (x1 : ℝ)) * ((x2 : ℝ) - (x1 : ℝ)) +
          ((y2 : ℝ) - (y1 : ℝ)) * ((y2 : ℝ) - (y1 : ℝ))) := by
      nlinarith [mul_nonneg e1 hLR.le]
    push_cast
    nlinarith [mul_nonneg e1 e2]
  · -- 0 ≤ param ≤ 1 : the perpendicular foot itself
    have hLpos : (0 : ℚ) < (x2 - x1) * (x2 - x1) + (y2 - y1) * (y2 - y1) :=
      lt_of_le_of_ne (add_nonneg (mul_self_nonneg _) (mul_self_nonneg _)) (Ne.symm hL)
    push_neg at hneg hgt
    set q : ℚ := ((x - x1) * (x2 - x1) + (y - y1) * (y2 - y1)) /
      ((x2 - x1) * (x2 - x1) + (y2 - y1) * (y2 - y1)) with hqdef
    have hqL : q * ((x2 - x1) * (x2 - x1) + (y2 - y1) * (y2 - y1)) =
        (x - x1) * (x2 - x1) + (y - y1) * (y2 - y1) := by
      rw [hqdef]
      exact div_mul_cancel₀ _ hL
    have hLR : (0 : ℝ) < ((x2 : ℝ) - (x1 : ℝ)) * ((x2 : ℝ) - (x1 : ℝ)) +
        ((y2 : ℝ) - (y1 : ℝ)) * ((y2 : ℝ) - (y1 : ℝ)) := by exact_mod_cast hLpos
    have hqLR : ((q : ℝ)) * (((x2 : ℝ) - (x1 : ℝ)) * ((x2 : ℝ) - (x1 : ℝ)) +
        ((y2 : ℝ) - (y1 : ℝ)) * ((y2 : ℝ) - (y1 : ℝ))) =
        ((x : ℝ) - (x1 : ℝ)) * ((x2 : ℝ) - (x1 : ℝ)) +
        ((y : ℝ) - (y1 : ℝ)) * ((y2 : ℝ) - (y1 : ℝ)) := by exact_mod_cast hqL
    have key : (t - (q : ℝ)) *
        (((q : ℝ)) * (((x2 : ℝ) - (x1 : ℝ)) * ((x2 : ℝ) - (x1 : ℝ)) +
            ((y2 : ℝ) - (y1 : ℝ)) * ((y2 : ℝ) - (y1 : ℝ))) -
          (((x : ℝ) - (x1 : ℝ)) * ((x2 : ℝ) - (x1 : ℝ)) +
            ((y : ℝ) - (y1 : ℝ)) * ((y2 : ℝ) - (y1 : ℝ)))) = 0 := by
      rw [hqLR]
      ring
    push_cast
    nlinarith [mul_nonneg hLR.le (sq_nonneg (t - (q : ℝ))), key]
  · -- zero-length edge, param = -1 : both sides collapse to the start point
    have hL0 : (x2 - x1) * (x2 - x1) + (y2 - y1) * (y2 - y1) = 0 := not_not.mp hL
    have hc : (x2 - x1) * (x2 - x1) = 0 :=
      le_antisymm (by nlinarith [mul_self_nonneg (y2 - y1)]) (mul_self_nonneg _)
    have hd : (y2 - y1) * (y2 - y1) = 0 :=
      le_antisymm (by nlinarith [mul_self_nonneg (x2 - x1)]) (mul_self_nonneg _)
    have hx : x2 = x1 := by
      have := mul_self_eq_zero.mp hc
      linarith
    have hy : y2 = y1 := by
      have := mul_self_eq_zero.mp hd
      linarith
    subst hx
    subst hy
    push_cast
    ring_nf
    exact le_refl _
  · exact absurd h5 (by norm_num)
  · exact absurd (by norm_num : (-1 : ℚ) < 0) h4

lemma sqDistPointSeg_eq_clamped (p s e : ℚ × ℚ) :
    ∃ u : ℝ, 0 ≤ u ∧ u ≤ 1 ∧
      ((sqDistPointSeg p s e : ℚ) : ℝ) = segPointSq p s e u := by
  obtain ⟨x, y⟩ := p
  obtain ⟨x1, y1⟩ := s
  obtain ⟨x2, y2⟩ := e
  simp only [sqDistPointSeg, segPointSq]
  split_ifs with hL hneg hgt h4 h5
  · exact ⟨0, le_refl 0, by norm_num, by push_cast; ring⟩
  · exact ⟨1, by norm_num, le_refl 1, by push_cast; ring⟩
  · push_neg at hneg hgt
    refine ⟨((((x - x1) * (x2 - x1) + (y - y1) * (y2 - y1)) /
        ((x2 - x1) * (x2 - x1) + (y2 - y1) * (y2 - y1)) : ℚ) : ℝ),
      by exact_mod_cast hneg, by exact_mod_cast hgt, by push_cast; ring⟩
  · exact ⟨0, le_refl 0, by norm_num, by push_cast; ring⟩
  · exact absurd h5 (by norm_num)
  · exact absurd (by norm_num : (-1 : ℚ) < 0) h4

/-- The distance used by the edge associator is the true point-to-segment
distance: it is a lower bound for the distance from the point to every
point of the segment, and it is attained at some segment point (the
clamped perpendicular foot, an endpoint when the projection falls
outside), so it is never the distance to the infinite line. -/
theorem point_to_segment_distance_min (p s e : ℚ × ℚ) (t : ℝ)
    (h0 : 0 ≤ t) (h1 : t ≤ 1) :
    point_to_line_distance p s e ≤ Real.sqrt (segPointSq p s e t) ∧
    ∃ u : ℝ, 0 ≤ u ∧ u ≤ 1 ∧
      point_to_line_distance p s e = Real.sqrt (segPointSq p s e u) := by
  constructor
  · exact Real.sqrt_le_sqrt (sqDistPointSeg_le_segPointSq p s e t h0 h1)
  · obtain ⟨u, hu0, hu1, he⟩ := sqDistPointSeg_eq_clamped p s e
    exact ⟨u, hu0, hu1, by rw [point_to_line_distance, he]⟩

/-- Witness for the point-to-segment minimality theorem at a concrete
point, segment and parameter. -/
theorem point_to_segment_distance_min_witness :
    point_to_line_distance (3, 4) (0, 0) (10, 0) ≤
      Real.sqrt (segPointSq (3, 4) (0, 0) (10, 0) (1 / 2)) ∧
    ∃ u : ℝ, 0 ≤ u ∧ u ≤ 1 ∧
      point_to_line_distance (3, 4) (0, 0) (10, 0) =
        Real.sqrt (segPointSq (3, 4) (0, 0) (10, 0) u) :=
  point_to_segment_distance_min (3, 4) (0, 0) (10, 0) (1 / 2)
    (by norm_num) (by norm_num)

end Seismic

